import Mathlib

/-!
Verification of the MiniMessage markup parser and serializer of the
kyori-component-json library (src/minimessage.rs, with the component data
model of src/lib.rs), as a shallow embedding in Lean.

Modelling conventions:
* Rust strings are modelled as lists of characters (`Str := List Char`).
  The Rust parser tracks a byte `position` into a UTF-8 string and slices
  `&input[position..]` at that byte offset; slicing at an offset that is not
  a character boundary (or past the end) panics at runtime.  We model the
  scan position by the remaining suffix of the input, and a one-byte
  `position += 1` step from a character boundary by: drop the head character
  if it occupies one UTF-8 byte, otherwise the new offset falls strictly
  inside that character and the next slice operation panics, modelled by the
  `panic` outcome.  `csize` is the UTF-8 byte width of a character.
* Fallible computations return `PRes`, with outcomes `ok`, `err` (the Rust
  `Err(MiniMessageError(..))`, messages modelled by the enumeration `PErr`),
  and `panic` (a Rust runtime panic).  The `timeout` outcome is an artifact
  of the fuel parameter that makes the recursive-descent loops structurally
  recursive; fuel only decreases along loop iterations and nested parses, and
  the top-level entry point supplies fuel far above what any terminating run
  can consume.
* Rust `Vec` push/pop at the back is modelled by consing at the head of a
  list; where the original order matters (component parts) the accumulated
  list is reversed when read out.
* The `HashMap<TextDecoration, Option<bool>>` built by `collect_decorations`
  is modelled as an association list in insertion order; since the five keys
  are distinct and each assigns a distinct field, the unspecified hash-map
  iteration order cannot affect the result of `Component::decorations`.
* The `shadow_color` style attribute (an `f32`-carrying type) is omitted from
  the model: the MiniMessage parser and serializer never construct or inspect
  it, and `merge_style` only copies it, so its omission is unobservable here.
  Likewise the opaque `serde_json::Value` payload of `ShowItem` is dropped.
-/

set_option maxRecDepth 10000
set_option maxHeartbeats 1600000

namespace Kyori

/-- Rust strings, as lists of characters. -/
abbrev Str := List Char

/-- Convenience conversion from Lean string literals. -/
def str (s : String) : Str := s.data

/-- UTF-8 byte width of a character (Rust char::len_utf8). -/
def csize (c : Char) : Nat :=
  if c.toNat < 0x80 then 1
  else if c.toNat < 0x800 then 2
  else if c.toNat < 0x10000 then 3
  else 4

/-- Byte length of a string (Rust str::len). -/
def byteLen : Str → Nat
  | [] => 0
  | c :: rest => csize c + byteLen rest

/-- Rust char::is_whitespace: the Unicode White_Space property. -/
def isRustWhitespace (c : Char) : Bool :=
  [0x9, 0xA, 0xB, 0xC, 0xD, 0x20, 0x85, 0xA0, 0x1680,
   0x2000, 0x2001, 0x2002, 0x2003, 0x2004, 0x2005, 0x2006, 0x2007,
   0x2008, 0x2009, 0x200A, 0x2028, 0x2029, 0x202F, 0x205F, 0x3000].contains c.toNat

/-- Characters accepted inside a tag name by read_tag_name:
    is_ascii_alphanumeric, underscore, or hyphen.  All occupy one byte. -/
def isTagNameChar (c : Char) : Bool :=
  (('a' ≤ c && c ≤ 'z') || ('A' ≤ c && c ≤ 'Z') || ('0' ≤ c && c ≤ '9')
    || c == '_' || c == '-')

/-- Lowercasing of a tag-name character.  read_tag_name only admits ASCII
    characters, on which Rust str::to_lowercase acts exactly like this. -/
def lowerAscii (c : Char) : Char :=
  if 'A' ≤ c && c ≤ 'Z' then Char.ofNat (c.toNat + 32) else c

/-- Rust str::starts_with(char) on the suffix at a character boundary. -/
def headIs (s : Str) (c : Char) : Bool :=
  match s with
  | [] => false
  | d :: _ => d == c

/-- Single-quote character, written by code point to keep the source plain. -/
def quoteChar1 : Char := Char.ofNat 39

/-- Double-quote character. -/
def quoteChar2 : Char := Char.ofNat 34

/-- Backslash character. -/
def backslashChar : Char := Char.ofNat 92

/-- NUL character, the unwrap_or default of current_char. -/
def nulChar : Char := Char.ofNat 0

/-! The component data model, from src/lib.rs. -/

/-- Named text colors (lib.rs NamedColor). -/
inductive NamedColor where
  | black | darkBlue | darkGreen | darkAqua | darkRed | darkPurple | gold | gray
  | darkGray | blue | green | aqua | red | lightPurple | yellow | white
deriving DecidableEq, Repr

/-- Text color representation (lib.rs Color). -/
inductive Color where
  | Named (c : NamedColor)
  | Hex (s : Str)
deriving DecidableEq, Repr

/-- Click actions (lib.rs ClickEvent).  Pages are i32 in Rust; the parser
    never constructs a ChangePage so the Int model is unconstrained here. -/
inductive ClickEvent where
  | OpenUrl (url : Str)
  | OpenFile (path : Str)
  | RunCommand (command : Str)
  | SuggestCommand (command : Str)
  | ChangePage (page : Int)
  | CopyToClipboard (value : Str)
deriving DecidableEq, Repr

/-- UUID representation for entity hover events (lib.rs UuidRepr). -/
inductive UuidRepr where
  | strRepr (s : Str)
  | intArray (a b c d : Int)
deriving DecidableEq, Repr

/-- Hover actions (lib.rs HoverEvent), parametrised by the component type to
    allow the nested-inductive definition of Component below.  The opaque
    serde_json::Value item payload is not modelled. -/
inductive HoverEventF (C : Type) where
  | ShowText (value : C)
  | ShowItem (id : Str) (count : Option Int)
  | ShowEntity (name : Option C) (id : Str) (uuid : UuidRepr)
deriving Repr

/-- Content type of a component object (lib.rs ContentType). -/
inductive ContentType where
  | Text | Translatable | Score | Selector | Keybind | Nbt
deriving DecidableEq, Repr

/-- NBT data source (lib.rs NbtSource). -/
inductive NbtSource where
  | Block | Entity | Storage
deriving DecidableEq, Repr

/-- Scoreboard value content (lib.rs ScoreContent). -/
structure ScoreContent where
  name : Str
  objective : Str
deriving DecidableEq, Repr

/-- The full component object (lib.rs ComponentObject), parametrised by the
    component type; all fields default to absent as in Rust's Default.
    The field `with` of the Rust struct is called `with_args` here because
    `with` is a reserved word in Lean. -/
structure ComponentObjectF (C : Type) where
  content_type : Option ContentType := none
  text : Option Str := none
  translate : Option Str := none
  fallback : Option Str := none
  with_args : Option (List C) := none
  score : Option ScoreContent := none
  selector : Option Str := none
  separator : Option C := none
  keybind : Option Str := none
  nbt : Option Str := none
  source : Option NbtSource := none
  interpret : Option Bool := none
  block : Option Str := none
  entity : Option Str := none
  storage : Option Str := none
  extra : Option (List C) := none
  color : Option Color := none
  font : Option Str := none
  bold : Option Bool := none
  italic : Option Bool := none
  underlined : Option Bool := none
  strikethrough : Option Bool := none
  obfuscated : Option Bool := none
  insertion : Option Str := none
  click_event : Option ClickEvent := none
  hover_event : Option (HoverEventF C) := none
deriving Repr

/-- Minecraft text components (lib.rs Component). -/
inductive Component where
  | str (s : Str)
  | arr (cs : List Component)
  | obj (o : ComponentObjectF Component)
deriving Repr

/-- Component objects over components. -/
abbrev ComponentObject := ComponentObjectF Component

/-- Hover events over components. -/
abbrev HoverEvent := HoverEventF Component

/-- Ambient formatting (lib.rs Style); every attribute defaults to unset. -/
structure Style where
  color : Option Color := none
  font : Option Str := none
  bold : Option Bool := none
  italic : Option Bool := none
  underlined : Option Bool := none
  strikethrough : Option Bool := none
  obfuscated : Option Bool := none
  insertion : Option Str := none
  click_event : Option ClickEvent := none
  hover_event : Option HoverEvent := none
deriving Repr

/-- The all-unset default style (Style::default). -/
def defaultStyle : Style := {}

/-- Text decorations (lib.rs TextDecoration). -/
inductive TextDecoration where
  | Bold | Italic | Underlined | Strikethrough | Obfuscated
deriving DecidableEq, Repr

/-- Component::text: a component object carrying only the given text. -/
def Component.text (t : Str) : Component :=
  .obj { text := some t }

/-- Component::map_object: the internal helper applying a transformation to
    the object form of a component. -/
def mapObject (c : Component) (f : ComponentObject → ComponentObject) : Component :=
  match c with
  | .str s => .obj (f { content_type := some .Text, text := some s })
  | .arr vec => .obj (f { extra := some vec })
  | .obj o => .obj (f o)

/-- Component::color. -/
def Component.color (c : Component) (col : Option Color) : Component :=
  mapObject c (fun o => { o with color := col })

/-- Component::decorations, taking the decoration map as an association list
    (see the modelling notes on hash-map iteration order). -/
def Component.decorations (c : Component)
    (decs : List (TextDecoration × Option Bool)) : Component :=
  mapObject c (fun o => decs.foldl
    (fun o p => match p.1 with
      | .Bold => { o with bold := p.2 }
      | .Italic => { o with italic := p.2 }
      | .Underlined => { o with underlined := p.2 }
      | .Strikethrough => { o with strikethrough := p.2 }
      | .Obfuscated => { o with obfuscated := p.2 }) o)

/-- Keep the first option if present, otherwise take the second (the shape of
    every assignment in ComponentObject::merge_style). -/
def orElseOpt {α : Type} (a b : Option α) : Option α :=
  match a with
  | some v => some v
  | none => b

/-- ComponentObject::merge_style: fill every unset style attribute from the
    fallback style. -/
def mergeStyle (o : ComponentObject) (fb : Style) : ComponentObject :=
  { o with
    color := orElseOpt o.color fb.color
    font := orElseOpt o.font fb.font
    bold := orElseOpt o.bold fb.bold
    italic := orElseOpt o.italic fb.italic
    underlined := orElseOpt o.underlined fb.underlined
    strikethrough := orElseOpt o.strikethrough fb.strikethrough
    obfuscated := orElseOpt o.obfuscated fb.obfuscated
    insertion := orElseOpt o.insertion fb.insertion
    click_event := orElseOpt o.click_event fb.click_event
    hover_event := orElseOpt o.hover_event fb.hover_event }

mutual

/-- Component::apply_fallback_style. -/
def applyFallback (fb : Style) : Component → Component
  | .str s => .obj (mergeStyle { content_type := some .Text, text := some s } fb)
  | .arr vec => .arr (applyFallbackList fb vec)
  | .obj ⟨ct, t, tr, fbk, w, sc, sel, sep, kb, nb, src, itp, blk, ent, stg, ex,
          col, fnt, b, i, u, stk, ob, ins, ce, he⟩ =>
    let merged := mergeStyle ⟨ct, t, tr, fbk, w, sc, sel, sep, kb, nb, src, itp,
                              blk, ent, stg, ex, col, fnt, b, i, u, stk, ob, ins, ce, he⟩ fb
    match ex with
    | some l => .obj { merged with extra := some (applyFallbackList fb l) }
    | none => .obj merged

/-- apply_fallback_style mapped over a list of children. -/
def applyFallbackList (fb : Style) : List Component → List Component
  | [] => []
  | c :: cs => applyFallback fb c :: applyFallbackList fb cs

end

/-- FromStr for NamedColor (lib.rs impl FromStr). -/
def namedColorFromStr (s : Str) : Option NamedColor :=
  if s == str "black" then some .black
  else if s == str "dark_blue" then some .darkBlue
  else if s == str "dark_green" then some .darkGreen
  else if s == str "dark_aqua" then some .darkAqua
  else if s == str "dark_red" then some .darkRed
  else if s == str "dark_purple" then some .darkPurple
  else if s == str "gold" then some .gold
  else if s == str "gray" then some .gray
  else if s == str "dark_gray" then some .darkGray
  else if s == str "blue" then some .blue
  else if s == str "green" then some .green
  else if s == str "aqua" then some .aqua
  else if s == str "red" then some .red
  else if s == str "light_purple" then some .lightPurple
  else if s == str "yellow" then some .yellow
  else if s == str "white" then some .white
  else none

/-- Display for NamedColor (lib.rs impl Display). -/
def namedColorStr (n : NamedColor) : Str :=
  match n with
  | .black => str "black"
  | .darkBlue => str "dark_blue"
  | .darkGreen => str "dark_green"
  | .darkAqua => str "dark_aqua"
  | .darkRed => str "dark_red"
  | .darkPurple => str "dark_purple"
  | .gold => str "gold"
  | .gray => str "gray"
  | .darkGray => str "dark_gray"
  | .blue => str "blue"
  | .green => str "green"
  | .aqua => str "aqua"
  | .red => str "red"
  | .lightPurple => str "light_purple"
  | .yellow => str "yellow"
  | .white => str "white"

/-- The distinguishable MiniMessageError messages raised by the parser. -/
inductive PErr where
  | expectedTagName
  | unterminatedQuote
  | expectedArgument
  | unbalancedClose
  | expected (c : Char)
deriving DecidableEq, Repr

/-- Outcomes of a parser computation: success, a MiniMessageError, a Rust
    runtime panic, or exhaustion of the artificial fuel (see module notes). -/
inductive PRes (α : Type) where
  | ok (a : α)
  | err (e : PErr)
  | panic
  | timeout
deriving Repr

/-- Sequencing of parser computations (the ? operator on Rust Results,
    with panic and fuel exhaustion propagated). -/
def PRes.bind {α β : Type} : PRes α → (α → PRes β) → PRes β
  | .ok a, f => f a
  | .err e, _ => .err e
  | .panic, _ => .panic
  | .timeout, _ => .timeout

/-- Parser/serializer configuration (minimessage.rs MiniMessageConfig);
    both flags default to false. -/
structure MiniMessageConfig where
  strict : Bool := false
  parseLegacyColors : Bool := false
deriving DecidableEq, Repr

/-- The default configuration, used by MiniMessage::new and from_str. -/
def defaultConfig : MiniMessageConfig := {}

/-- Mutable parser state (minimessage.rs struct Parser).  The byte position
    into the input is represented by the remaining suffix `rest`; the style
    stack and the accumulated component parts grow at the head (see the
    modelling notes), so `parts` holds the emitted components in reverse
    order and `styleStack` holds the innermost frame first with the default
    frame last. -/
structure PState where
  rest : Str
  styleStack : List Style
  parts : List Component
deriving Repr

/-- Parser::current_style: the top (innermost) style frame.  The stack is
    never empty (the Rust code unwraps with a SAFETY comment). -/
def currentStyle (st : PState) : Style :=
  st.styleStack.headD defaultStyle

/-- Parser::push_style: clone the current style, mutate one field, push. -/
def pushStyle (st : PState) (modifier : Style → Style) : PRes PState :=
  .ok { st with styleStack := modifier (currentStyle st) :: st.styleStack }

/-- Parser::pop_style: pop one frame, an unbalanced-closing-tag error if only
    the default frame remains. -/
def popStyle (st : PState) : PRes PState :=
  if st.styleStack.length > 1 then
    .ok { st with styleStack := st.styleStack.tail }
  else
    .err .unbalancedClose

/-- Parser::reset_style: pop down to the single default bottom frame. -/
def resetStyle (st : PState) : PRes PState :=
  .ok { st with styleStack := [st.styleStack.getLastD defaultStyle] }

/-- Parser::collect_decorations, as an association list in insertion order. -/
def collectDecorations (style : Style) : List (TextDecoration × Option Bool) :=
  (match style.bold with | some b => [(TextDecoration.Bold, some b)] | none => [])
  ++ (match style.italic with | some b => [(TextDecoration.Italic, some b)] | none => [])
  ++ (match style.underlined with | some b => [(TextDecoration.Underlined, some b)] | none => [])
  ++ (match style.strikethrough with | some b => [(TextDecoration.Strikethrough, some b)] | none => [])
  ++ (match style.obfuscated with | some b => [(TextDecoration.Obfuscated, some b)] | none => [])

/-- Parser::skip_whitespace.  The Rust loop advances one byte at a time;
    stepping over a multi-byte whitespace character leaves the position
    inside it and the next slice panics. -/
def skipWhitespace : Str → PRes Str
  | [] => .ok []
  | c :: rest =>
    if isRustWhitespace c then
      if csize c == 1 then skipWhitespace rest else .panic
    else .ok (c :: rest)

/-- Scanning loop of Parser::read_tag_name: take the longest prefix of
    tag-name characters (all single-byte, so no panic is possible here). -/
def readTagNameLoop : Str → Str × Str
  | [] => ([], [])
  | c :: rest =>
    if isTagNameChar c then
      let p := readTagNameLoop rest
      (c :: p.1, p.2)
    else ([], c :: rest)

/-- Parser::read_tag_name: a nonempty run of tag-name characters, lowercased;
    an empty run is the expected-tag-name error. -/
def readTagName (s : Str) : PRes (Str × Str) :=
  let p := readTagNameLoop s
  if p.1.isEmpty then .err .expectedTagName
  else .ok (p.1.map lowerAscii, p.2)

/-- Scanning loop of Parser::read_quoted_string, after the opening quote.
    Each iteration advances the position by one byte, so any multi-byte
    character that is consumed leads to a panic on the following slice. -/
def readQuotedLoop (q : Char) : Bool → Str → Str → PRes (Str × Str)
  | _, _, [] => .err .unterminatedQuote
  | true, acc, c :: rest =>
    if csize c == 1 then readQuotedLoop q false (acc ++ [c]) rest else .panic
  | false, acc, c :: rest =>
    if c == backslashChar then readQuotedLoop q true acc rest
    else if c == q then .ok (acc, rest)
    else if csize c == 1 then readQuotedLoop q false (acc ++ [c]) rest else .panic

/-- Parser::read_quoted_string: the caller has checked that the head is a
    quote character (one byte), which is consumed as the delimiter. -/
def readQuotedString (s : Str) : PRes (Str × Str) :=
  match s with
  | [] => .err .unterminatedQuote
  | q :: rest => readQuotedLoop q false [] rest

/-- Scanning loop of Parser::read_unquoted_string: stop at ':', '>', '/', or
    whitespace; one byte per step, so consuming a multi-byte character
    panics on the following slice. -/
def readUnquotedLoop : Str → Str → PRes (Str × Str)
  | acc, [] => .ok (acc, [])
  | acc, c :: rest =>
    if c == ':' || c == '>' || c == '/' || isRustWhitespace c then .ok (acc, c :: rest)
    else if csize c == 1 then readUnquotedLoop (acc ++ [c]) rest else .panic

/-- Parser::read_unquoted_string: an empty run is the expected-argument
    error. -/
def readUnquotedString (s : Str) : PRes (Str × Str) :=
  (readUnquotedLoop [] s).bind fun p =>
    if p.1.isEmpty then .err .expectedArgument else .ok p

/-- Parser::read_argument: quoted if the head is a single or double quote,
    unquoted otherwise. -/
def readArgument (s : Str) : PRes (Str × Str) :=
  if headIs s quoteChar1 || headIs s quoteChar2 then readQuotedString s
  else readUnquotedString s

/-- Parser::expect: consume exactly the expected delimiter or fail. -/
def expectChar (c : Char) (s : Str) : PRes Str :=
  match s with
  | [] => .err (.expected c)
  | d :: rest => if d == c then .ok rest else .err (.expected c)

/-- Scanning loop of Parser::parse_text: accumulate a literal run, stopping
    at '<' (and at '&' when legacy colors are enabled); one byte per step,
    so a multi-byte character in the run panics on the following slice. -/
def parseTextLoop (cfg : MiniMessageConfig) : Str → Str → PRes (Str × Str)
  | acc, [] => .ok (acc, [])
  | acc, c :: rest =>
    if c == '<' || (cfg.parseLegacyColors && c == '&') then .ok (acc, c :: rest)
    else if csize c == 1 then parseTextLoop cfg (acc ++ [c]) rest else .panic

/-- Parser::parse_text: emit a nonempty literal run as one component carrying
    the current ambient color and decorations. -/
def parseText (cfg : MiniMessageConfig) (st : PState) : PRes PState :=
  (parseTextLoop cfg [] st.rest).bind fun p =>
    if p.1.isEmpty then .ok { st with rest := p.2 }
    else
      let style := currentStyle st
      let comp := ((Component.text p.1).color style.color).decorations
        (collectDecorations style)
      .ok { st with rest := p.2, parts := comp :: st.parts }

/-- The names recognized by Parser::handle_close_tag's explicit arm. -/
def explicitCloseNames : List Str :=
  [str "bold", str "b", str "italic", str "i", str "em", str "underlined",
   str "u", str "strikethrough", str "st", str "obfuscated", str "obf",
   str "color", str "colour", str "c", str "click", str "hover",
   str "insert", str "insertion"]

/-- Parser::handle_close_tag: explicitly recognized names pop via pop_style
    (which can fail); any other name pops only if more than the default frame
    remains, and otherwise does nothing. -/
def handleCloseTag (name : Str) (st : PState) : PRes PState :=
  if explicitCloseNames.contains name then
    popStyle st
  else
    if st.styleStack.length > 1 then
      .ok { st with styleStack := st.styleStack.tail }
    else .ok st

/-- parse_color (minimessage.rs free function): named lookup first, then a
    7-byte '#'-prefixed string is taken as a hex color. -/
def parseColor (s : Str) : Option Color :=
  match namedColorFromStr s with
  | some n => some (.Named n)
  | none =>
    if headIs s '#' && byteLen s == 7 then some (.Hex s) else none

/-- The result-shaping step ending Parser::parse: a single accumulated part
    is returned directly, anything else (none, or two or more) is wrapped in
    an array in encounter order.  The accumulated list is reversed because
    parts are consed at the head (see the modelling notes). -/
def finishParts (parts : List Component) : Component :=
  match parts.reverse with
  | [p] => p
  | ps => .arr ps

/-- The argument-collecting loop of Parser::parse_tag (lines 160-167):
    while not at '>' or '/', skip whitespace, re-check, then read one
    argument and push it. -/
def argsLoop : Nat → Str → List Str → PRes (List Str × Str)
  | 0, _, _ => .timeout
  | fuel + 1, s, args =>
    if !headIs s '>' && !headIs s '/' then
      (skipWhitespace s).bind fun s2 =>
        if headIs s2 '>' || headIs s2 '/' then .ok (args, s2)
        else
          (readArgument s2).bind fun p =>
            argsLoop fuel p.2 (args ++ [p.1])
    else .ok (args, s)

mutual

/-- Parser::parse_tag.  The state's rest starts at the '<' (checked by the
    caller), which is skipped as one byte. -/
def parseTag (cfg : MiniMessageConfig) : Nat → PState → PRes PState
  | 0, _ => .timeout
  | fuel + 1, st =>
    let s0 := st.rest.tail
    if headIs s0 '/' then
      (readTagName s0.tail).bind fun p =>
        (handleCloseTag p.1 { st with rest := p.2 }).bind fun st2 =>
          (expectChar '>' st2.rest).bind fun r =>
            .ok { st2 with rest := r }
    else
      (readTagName s0).bind fun p =>
        (argsLoop fuel p.2 []).bind fun q =>
          let r := if headIs q.2 '/' then (q.2.tail, true) else (q.2, false)
          (expectChar '>' r.1).bind fun s4 =>
            handleOpenTag cfg fuel p.1 q.1 r.2 { st with rest := s4 }

/-- Parser::handle_open_tag, with the match arms in source order (colors,
    color-with-argument, decorations, reset, click, hover, newline,
    insertion, the self-closing catch-all, and the literal-text fallback for
    unknown tags).  Guarded arms whose guard fails fall through exactly as
    the Rust match does. -/
def handleOpenTag (cfg : MiniMessageConfig) :
    Nat → Str → List Str → Bool → PState → PRes PState
  | 0, _, _, _, _ => .timeout
  | fuel + 1, tag, args, selfClosing, st =>
    if tag == str "black" then
      pushStyle st (fun s => { s with color := some (.Named .black) })
    else if tag == str "dark_blue" then
      pushStyle st (fun s => { s with color := some (.Named .darkBlue) })
    else if tag == str "dark_green" then
      pushStyle st (fun s => { s with color := some (.Named .darkGreen) })
    else if tag == str "dark_aqua" then
      pushStyle st (fun s => { s with color := some (.Named .darkAqua) })
    else if tag == str "dark_red" then
      pushStyle st (fun s => { s with color := some (.Named .darkRed) })
    else if tag == str "dark_purple" then
      pushStyle st (fun s => { s with color := some (.Named .darkPurple) })
    else if tag == str "gold" then
      pushStyle st (fun s => { s with color := some (.Named .gold) })
    else if tag == str "gray" then
      pushStyle st (fun s => { s with color := some (.Named .gray) })
    else if tag == str "dark_gray" then
      pushStyle st (fun s => { s with color := some (.Named .darkGray) })
    else if tag == str "blue" then
      pushStyle st (fun s => { s with color := some (.Named .blue) })
    else if tag == str "green" then
      pushStyle st (fun s => { s with color := some (.Named .green) })
    else if tag == str "aqua" then
      pushStyle st (fun s => { s with color := some (.Named .aqua) })
    else if tag == str "red" then
      pushStyle st (fun s => { s with color := some (.Named .red) })
    else if tag == str "light_purple" then
      pushStyle st (fun s => { s with color := some (.Named .lightPurple) })
    else if tag == str "yellow" then
      pushStyle st (fun s => { s with color := some (.Named .yellow) })
    else if tag == str "white" then
      pushStyle st (fun s => { s with color := some (.Named .white) })
    else if (tag == str "color" || tag == str "colour" || tag == str "c")
        && !args.isEmpty then
      match parseColor (args.headD []) with
      | some color => pushStyle st (fun s => { s with color := some color })
      | none => .ok st
    else if tag == str "bold" || tag == str "b" then
      pushStyle st (fun s => { s with bold := some true })
    else if tag == str "italic" || tag == str "i" || tag == str "em" then
      pushStyle st (fun s => { s with italic := some true })
    else if tag == str "underlined" || tag == str "u" then
      pushStyle st (fun s => { s with underlined := some true })
    else if tag == str "strikethrough" || tag == str "st" then
      pushStyle st (fun s => { s with strikethrough := some true })
    else if tag == str "obfuscated" || tag == str "obf" then
      pushStyle st (fun s => { s with obfuscated := some true })
    else if tag == str "reset" then
      resetStyle st
    else if tag == str "click" && args.length ≥ 2 then
      let action := args.headD []
      let value := args.tail.headD []
      if action == str "run_command" then
        pushStyle st (fun s => { s with click_event := some (.RunCommand value) })
      else if action == str "suggest_command" then
        pushStyle st (fun s => { s with click_event := some (.SuggestCommand value) })
      else if action == str "open_url" then
        pushStyle st (fun s => { s with click_event := some (.OpenUrl value) })
      else if action == str "copy_to_clipboard" then
        pushStyle st (fun s => { s with click_event := some (.CopyToClipboard value) })
      else .ok st
    else if tag == str "hover" && !args.isEmpty then
      if args.headD [] == str "show_text" && args.length ≥ 2 then
        (parseFuel cfg fuel (args.tail.headD [])).bind fun nested =>
          pushStyle st (fun s => { s with hover_event := some (.ShowText nested) })
      else .ok st
    else if tag == str "newline" || tag == str "br" then
      .ok { st with parts := Component.text (str "\n") :: st.parts }
    else if (tag == str "insert" || tag == str "insertion") && !args.isEmpty then
      pushStyle st (fun s => { s with insertion := some (args.headD []) })
    else if selfClosing then
      let style := currentStyle st
      let comp := ((Component.text []).color style.color).decorations
        (collectDecorations style)
      .ok { st with parts := comp :: st.parts }
    else
      let tagText := ('<' :: tag)
        ++ (args.foldl (fun acc a => acc ++ (':' :: a)) [])
        ++ (if selfClosing then ['/'] else []) ++ ['>']
      .ok { st with
        parts := applyFallback (currentStyle st) (Component.text tagText) :: st.parts }

/-- The main scanning loop of Parser::parse: at '<' parse a tag, otherwise a
    literal run, until the input is exhausted. -/
def parseLoop (cfg : MiniMessageConfig) : Nat → PState → PRes PState
  | 0, _ => .timeout
  | fuel + 1, st =>
    if st.rest.isEmpty then .ok st
    else if headIs st.rest '<' then
      (parseTag cfg fuel st).bind fun st2 => parseLoop cfg fuel st2
    else
      (parseText cfg st).bind fun st2 => parseLoop cfg fuel st2

/-- Parser::parse on a fresh parser state: run the loop, then return the
    single part directly or the parts wrapped in an array. -/
def parseFuel (cfg : MiniMessageConfig) : Nat → Str → PRes Component
  | 0, _ => .timeout
  | fuel + 1, input =>
    (parseLoop cfg fuel { rest := input, styleStack := [defaultStyle], parts := [] }).bind
      fun st => .ok (finishParts st.parts)

end

/-- MiniMessage::parse with the default configuration (also the behaviour of
    the trait from_str entry point).  The fuel is an over-approximation of
    the steps of any terminating run (see the modelling notes). -/
def mmParse (input : Str) : PRes Component :=
  parseFuel defaultConfig (4 * (byteLen input + 2)) input

/-! The serializer (minimessage.rs struct Serializer). -/

/-- get_named_color (minimessage.rs): named colors map to themselves, hex
    strings only via the canonical uppercase table. -/
def getNamedColor (color : Color) : Option NamedColor :=
  match color with
  | .Named n => some n
  | .Hex hex =>
    if hex == str "#000000" then some .black
    else if hex == str "#0000AA" then some .darkBlue
    else if hex == str "#00AA00" then some .darkGreen
    else if hex == str "#00AAAA" then some .darkAqua
    else if hex == str "#AA0000" then some .darkRed
    else if hex == str "#AA00AA" then some .darkPurple
    else if hex == str "#FFAA00" then some .gold
    else if hex == str "#AAAAAA" then some .gray
    else if hex == str "#555555" then some .darkGray
    else if hex == str "#5555FF" then some .blue
    else if hex == str "#55FF55" then some .green
    else if hex == str "#55FFFF" then some .aqua
    else if hex == str "#FF5555" then some .red
    else if hex == str "#FF55FF" then some .lightPurple
    else if hex == str "#FFFF55" then some .yellow
    else if hex == str "#FFFFFF" then some .white
    else none

/-- Mutable serializer state (output buffer and ambient style). -/
structure SState where
  output : Str
  current_style : Style

/-- Per-character emission of Serializer::serialize_text: escape the three
    markup-significant characters, copy everything else. -/
def escChar (c : Char) : Str :=
  if c == '<' then str "&lt;"
  else if c == '>' then str "&gt;"
  else if c == '&' then str "&amp;"
  else [c]

/-- The character loop of Serializer::serialize_text. -/
def serializeTextLoop : Str → Str → Str
  | out, [] => out
  | out, c :: t => serializeTextLoop (out ++ escChar c) t

/-- Serializer::serialize_text (always Ok in Rust, hence modelled total). -/
def serializeText (s : SState) (t : Str) : SState :=
  { s with output := serializeTextLoop s.output t }

/-- The style-delta list computed by Serializer::serialize_object: the color
    when set and different from the ambient color (canonical name if it maps
    to a named color, else a color:hex tag), then each boolean decoration on
    a transition to Some(true). -/
def styleChanges (o : ComponentObject) (prev : Style) : List Str :=
  (match o.color with
   | some color =>
     if some color = prev.color then []
     else match getNamedColor color with
       | some named => [namedColorStr named]
       | none => match color with
         | .Hex hex => [str "color:" ++ hex]
         | .Named _ => []
   | none => [])
  ++ (if o.bold ≠ prev.bold ∧ o.bold = some true then [str "bold"] else [])
  ++ (if o.italic ≠ prev.italic ∧ o.italic = some true then [str "italic"] else [])
  ++ (if o.underlined ≠ prev.underlined ∧ o.underlined = some true then [str "underlined"] else [])
  ++ (if o.strikethrough ≠ prev.strikethrough ∧ o.strikethrough = some true then [str "strikethrough"] else [])
  ++ (if o.obfuscated ≠ prev.obfuscated ∧ o.obfuscated = some true then [str "obfuscated"] else [])

/-- The text appended to the output by the opening-tag loop of
    serialize_object: a <name> tag for each delta, in order (the Rust loop
    appends each tag to the output buffer, i.e. their concatenation). -/
def openTagsStr : List Str → Str
  | [] => []
  | n :: ns => ('<' :: n) ++ '>' :: openTagsStr ns

/-- Concatenation of </name> tags for a list of names in the given order. -/
def closeSeq : List Str → Str
  | [] => []
  | n :: ns => ('<' :: '/' :: n) ++ '>' :: closeSeq ns

/-- The text appended to the output by the closing-tag loop of
    serialize_object: a </name> tag for each delta, in reverse order. -/
def closeTagsStr (changes : List Str) : Str :=
  closeSeq changes.reverse

mutual

/-- Serializer::serialize_component.  The body of Serializer::serialize_object
    is inlined into the object branch (with the object destructured, as the
    nested recursion into the children requires): save the ambient style,
    emit the delta opening tags, overwrite the six tracked style fields,
    serialize the text and the children, emit the closing tags in reverse,
    and restore the ambient style. -/
def serializeComponent : SState → Component → SState
  | s, .str t => serializeText s t
  | s, .arr cs => serializeList s cs
  | s, .obj ⟨ct, t, tr, fbk, w, sc, sel, sep, kb, nb, src, itp, blk, ent, stg, ex,
             col, fnt, b, i, u, stk, ob, ins, ce, he⟩ =>
    let o : ComponentObject := ⟨ct, t, tr, fbk, w, sc, sel, sep, kb, nb, src, itp,
                                blk, ent, stg, ex, col, fnt, b, i, u, stk, ob, ins, ce, he⟩
    let prev := s.current_style
    let changes := styleChanges o prev
    let s1 : SState := { s with output := s.output ++ openTagsStr changes }
    let s2 : SState := { s1 with current_style :=
      { prev with color := col, bold := b, italic := i, underlined := u,
                  strikethrough := stk, obfuscated := ob } }
    let s3 := match t with
      | some tx => serializeText s2 tx
      | none => s2
    let s4 := match ex with
      | some l => serializeList s3 l
      | none => s3
    let s5 : SState := { s4 with output := s4.output ++ closeTagsStr changes }
    { s5 with current_style := prev }

/-- Children serialized in order against the evolving serializer state. -/
def serializeList : SState → List Component → SState
  | s, [] => s
  | s, c :: cs => serializeList (serializeComponent s c) cs

end

/-- MiniMessage::to_string via Serializer::serialize on a fresh serializer
    (always Ok in Rust, hence modelled total). -/
def mmSerialize (c : Component) : Str :=
  (serializeComponent { output := [], current_style := defaultStyle } c).output

/-! Definitions used to state the claims. -/

/-- The color and decoration attributes of a leaf, the data compared
    per-character by the round-trip claim. -/
structure LeafStyle where
  color : Option Color
  bold : Option Bool
  italic : Option Bool
  underlined : Option Bool
  strikethrough : Option Bool
  obfuscated : Option Bool
deriving DecidableEq, Repr

/-- The attribute-free leaf style of plain text. -/
def plainStyle : LeafStyle := ⟨none, none, none, none, none, none⟩

mutual

/-- Flatten a component tree to its visible characters, each paired with the
    color/decoration attributes of the leaf that carries it.  This is the
    comparison function of the round-trip claim: it is invariant under
    re-splitting runs into a different number of components. -/
def styledChars : Component → List (Char × LeafStyle)
  | .str s => s.map (fun c => (c, plainStyle))
  | .arr cs => styledCharsList cs
  | .obj ⟨_, t, _, _, _, _, _, _, _, _, _, _, _, _, _, ex,
          col, _, b, i, u, stk, ob, _, _, _⟩ =>
    (match t with
     | some tx => tx.map (fun c => (c, (⟨col, b, i, u, stk, ob⟩ : LeafStyle)))
     | none => [])
    ++ (match ex with
        | some l => styledCharsList l
        | none => [])

/-- styledChars over a list of sibling components. -/
def styledCharsList : List Component → List (Char × LeafStyle)
  | [] => []
  | c :: cs => styledChars c ++ styledCharsList cs

end

/-- Characters that round-trip through the serializer's escaping and a text
    run of the parser: single-byte and none of '<', '>', '&'. -/
def cleanChar (c : Char) : Bool :=
  c.toNat < 128 && !(c == '<') && !(c == '>') && !(c == '&')

/-- Colors in the serializer's faithful range: absent or named (a hex color
    serializes to a color:hex tag whose closing form does not re-parse). -/
def okColorOpt : Option Color → Bool
  | none => true
  | some (.Named _) => true
  | some (.Hex _) => false

/-- Decorations in the serializer's faithful range: unset or explicitly true
    (an explicit false is silently dropped by the serializer). -/
def okDecoOpt : Option Bool → Bool
  | none => true
  | some b => b

/-- A leaf in the serializer's supported color/decoration fragment: a text
    object with nonempty clean text, no content payload other than text, no
    children, no font/insertion/click/hover, absent-or-named color and
    absent-or-true decorations — the shape of every component the parser
    emits for markup in the fragment of the round-trip claim. -/
def simpleLeaf : Component → Bool
  | .obj o =>
    (match o.text with
     | some t => !t.isEmpty && t.all cleanChar
     | none => false)
    && o.content_type.isNone && o.translate.isNone && o.fallback.isNone
    && o.with_args.isNone && o.score.isNone && o.selector.isNone
    && o.separator.isNone && o.keybind.isNone && o.nbt.isNone
    && o.source.isNone && o.interpret.isNone && o.block.isNone
    && o.entity.isNone && o.storage.isNone && o.extra.isNone
    && o.font.isNone && o.insertion.isNone && o.click_event.isNone
    && o.hover_event.isNone
    && okColorOpt o.color && okDecoOpt o.bold && okDecoOpt o.italic
    && okDecoOpt o.underlined && okDecoOpt o.strikethrough
    && okDecoOpt o.obfuscated
  | _ => false

/-- A parse result in the serializer's supported fragment: a single simple
    leaf, or a (possibly empty) flat array of simple leaves. -/
def simpleTree : Component → Bool
  | .arr cs => cs.all simpleLeaf
  | c => simpleLeaf c

/-- The hover example input of the spec,
    <hover:show_text:'<red>tip'>label</hover>. -/
def hoverExampleInput : Str :=
  str "<hover:show_text:" ++ [quoteChar1] ++ str "<red>tip" ++ [quoteChar1]
    ++ str ">label</hover>"

/-- Modelled from the spec: the per-character output mapping of text-leaf
    serialization as the spec states it — every '<' becomes &lt;, every '>'
    becomes &gt;, every '&' becomes &amp;, all other characters are copied
    verbatim.  Stated independently of the code-side escChar for the
    refinement claim about serialize_text. -/
def escSpecChar (c : Char) : Str :=
  if c = '<' then str "&lt;"
  else if c = '>' then str "&gt;"
  else if c = '&' then str "&amp;"
  else [c]

/-! Proof-layer definitions for the round-trip development.  These are
    specification-side decompositions of the serializer output and of the
    parser runs over it; they are not translations of source functions. -/

/-- The style deltas the serializer can emit in the color/decoration
    fragment: a named color or one of the five decorations. -/
inductive ChangeTag where
  | colorC (n : NamedColor)
  | boldC | italicC | underlinedC | strikethroughC | obfuscatedC
deriving DecidableEq, Repr

/-- The tag name emitted for a style delta. -/
def changeName : ChangeTag → Str
  | .colorC n => namedColorStr n
  | .boldC => str "bold"
  | .italicC => str "italic"
  | .underlinedC => str "underlined"
  | .strikethroughC => str "strikethrough"
  | .obfuscatedC => str "obfuscated"

/-- The effect of opening a style-delta tag on the pushed style frame,
    matching the corresponding handle_open_tag arm. -/
def applyChange : ChangeTag → Style → Style
  | .colorC n, s => { s with color := some (.Named n) }
  | .boldC, s => { s with bold := some true }
  | .italicC, s => { s with italic := some true }
  | .underlinedC, s => { s with underlined := some true }
  | .strikethroughC, s => { s with strikethrough := some true }
  | .obfuscatedC, s => { s with obfuscated := some true }

/-- A string the tag-name lexer reads back unchanged: nonempty, made of
    tag-name characters, and fixed by lowercasing. -/
def validTagName (n : Str) : Bool :=
  !n.isEmpty && n.all isTagNameChar && (n.map lowerAscii == n)

/-- The style frames pushed by opening a sequence of style-delta tags in
    order, each cloning the current top frame. -/
def pushFrames : List ChangeTag → List Style → List Style
  | [], stack => stack
  | ct :: rest, stack => pushFrames rest (applyChange ct (stack.headD defaultStyle) :: stack)

/-- The ambient style after opening a sequence of style-delta tags starting
    from a given style. -/
def foldStyle (chs : List ChangeTag) (s0 : Style) : Style :=
  chs.foldl (fun s ct => applyChange ct s) s0

/-- The style deltas of a leaf against the default ambient style, as
    ChangeTags (in the serializer's emission order). -/
def chsOf (o : ComponentObject) : List ChangeTag :=
  (match o.color with
   | some (.Named n) => [ChangeTag.colorC n]
   | _ => [])
  ++ (if o.bold = some true then [ChangeTag.boldC] else [])
  ++ (if o.italic = some true then [ChangeTag.italicC] else [])
  ++ (if o.underlined = some true then [ChangeTag.underlinedC] else [])
  ++ (if o.strikethrough = some true then [ChangeTag.strikethroughC] else [])
  ++ (if o.obfuscated = some true then [ChangeTag.obfuscatedC] else [])

/-- The component a text run produces: the literal text with the ambient
    color and decorations (the normal form of parse_text's emission). -/
def mkTextLeaf (t : Str) (sty : Style) : Component :=
  .obj { text := some t, color := sty.color, bold := sty.bold,
         italic := sty.italic, underlined := sty.underlined,
         strikethrough := sty.strikethrough, obfuscated := sty.obfuscated }

/-- A simple leaf with no color and no decorations: it serializes to its
    bare text with no surrounding tags. -/
def isPlainLeaf : Component → Bool
  | .obj o =>
    simpleLeaf (.obj o) && o.color.isNone && o.bold.isNone && o.italic.isNone
      && o.underlined.isNone && o.strikethrough.isNone && o.obfuscated.isNone
  | _ => false

/-- Whether a component list starts with a plain simple leaf. -/
def headPlain : List Component → Bool
  | [] => false
  | c :: _ => isPlainLeaf c

/-- No two adjacent plain leaves (so every maximal literal run of the
    serialized output is the text of exactly one leaf). -/
def noAdjPlain : List Component → Bool
  | [] => true
  | c :: rest => (!(isPlainLeaf c) || !(headPlain rest)) && noAdjPlain rest

/-- The text of a leaf (empty for non-leaves). -/
def textOfC : Component → Str
  | .obj o => o.text.getD []
  | _ => []

/-- Flush accumulated plain text into a single plain leaf. -/
def flushP : Option Str → List Component
  | none => []
  | some t => [.obj { text := some t }]

/-- Merge runs of adjacent plain leaves into one plain leaf each, carrying
    the pending plain text of the current run; this preserves the serialized
    output and the styled characters, and establishes noAdjPlain. -/
def mergeAux : Option Str → List Component → List Component
  | pending, [] => flushP pending
  | pending, c :: rest =>
    if isPlainLeaf c then
      mergeAux (some (pending.getD [] ++ textOfC c)) rest
    else
      flushP pending ++ c :: mergeAux none rest

/-- Normal form of a leaf list with maximal plain runs merged. -/
def mergePlain (ls : List Component) : List Component :=
  mergeAux none ls

/-- Accumulated pending text is absent or nonempty and clean. -/
def pendOK : Option Str → Bool
  | none => true
  | some t => !t.isEmpty && t.all cleanChar

/-- The raw text of the pending accumulator. -/
def pendStr : Option Str → Str
  | none => []
  | some t => t

/-- The serializer output block of one leaf against the default ambient
    style: opening delta tags, the (clean, hence unescaped) text, closing
    delta tags. -/
def blockOf : Component → Str
  | .obj o =>
    openTagsStr (styleChanges o defaultStyle) ++ o.text.getD []
      ++ closeTagsStr (styleChanges o defaultStyle)
  | _ => []

/-- Concatenated serializer output of a list of leaves. -/
def blocksStr : List Component → Str
  | [] => []
  | c :: rest => blockOf c ++ blocksStr rest

/-- Upper bound on the loop fuel consumed re-parsing one leaf block. -/
def leafFuel : Component → Nat
  | .obj o => 2 * (styleChanges o defaultStyle).length + 2
  | _ => 2

/-- Upper bound on the loop fuel consumed re-parsing a block list. -/
def needFuel : List Component → Nat
  | [] => 0
  | c :: rest => leafFuel c + needFuel rest

/-- The sibling leaves of a parse result (a bare leaf is its own singleton). -/
def leavesOf : Component → List Component
  | .arr cs => cs
  | c => [c]

/-! Helper lemmas. -/

@[simp]
theorem PRes.bind_ok {α β : Type} (a : α) (f : α → PRes β) :
    (PRes.ok a).bind f = f a := rfl

@[simp]
theorem PRes.bind_err {α β : Type} (e : PErr) (f : α → PRes β) :
    (PRes.err e).bind f = .err e := rfl

@[simp]
theorem PRes.bind_panic {α β : Type} (f : α → PRes β) :
    (PRes.panic).bind f = (.panic : PRes β) := rfl

@[simp]
theorem PRes.bind_timeout {α β : Type} (f : α → PRes β) :
    (PRes.timeout).bind f = (.timeout : PRes β) := rfl

/-! Claim theorems for the directly computable claims. -/

/-- Claim C1 (status code_bug): the spec says ':' separators and whitespace
    between tag name and arguments are skipped and an empty unquoted argument
    is accepted, and the repository's own tests rely on this; the code as
    written instead hits read_unquoted_string at the ':' separator, which
    raises the expected-argument error.  This theorem evaluates the code at
    the failing input <c:red>x</c> and at the bare lexer level. -/
theorem c1_separator_failure :
    mmParse (str "<c:red>x</c>") = .err .expectedArgument
      ∧ readUnquotedString (str ":red") = .err .expectedArgument :=
  ⟨rfl, rfl⟩

/-- Claim C2 (status code_bug): the spec (and the repository's own
    test_parse_nested) expects <hover:show_text:'<red>tip'>label</hover> to
    parse into a hover node, but the argument reader errors at the first ':'
    separator, so the whole parse fails with the expected-argument error. -/
theorem c2_hover_example_fails :
    mmParse hoverExampleInput = .err .expectedArgument := rfl

/-- Claim C3 (status code_bug): a parse call should always return a parsed
    component or a MiniMessageError, but the scanner advances byte-by-byte
    and re-slices the input at those offsets, so any multi-byte character in
    a literal run (here a single U+00E9) makes the Rust code panic on a
    non-boundary slice; the model returns the panic outcome. -/
theorem c3_multibyte_panics :
    mmParse [Char.ofNat 233] = .panic := rfl

/-- Claim C5 counterexample: parsing <bold><italic>x</bold></italic> does
    not raise the unbalanced-tag error; it succeeds with a single bold-italic
    "x" component, because each closing tag pops the (nonempty) top of the
    style stack regardless of its name. -/
theorem c5_crossed_tags_not_an_error :
    mmParse (str "<bold><italic>x</bold></italic>")
      = .ok (.obj { text := some (str "x"), bold := some true, italic := some true }) := rfl

/-- Claim C5 as amended: parsing <bold><italic>x</bold></italic> succeeds
    with text "x" carrying both decorations, since a closing tag of an
    explicitly recognized name pops the top style frame without comparing
    names, and frames remain on the stack at both closes. -/
theorem c5_amended_crossed_tags_succeed :
    (∀ (s1 s2 : Style) (ss : List Style) (r : Str) (p : List Component),
      handleCloseTag (str "bold") ⟨r, s1 :: s2 :: ss, p⟩ = .ok ⟨r, s2 :: ss, p⟩)
    ∧ mmParse (str "<bold><italic>x</bold></italic>")
      = .ok (.obj { text := some (str "x"), bold := some true, italic := some true }) := by
  refine ⟨fun s1 s2 ss r p => ?_, rfl⟩
  simp [handleCloseTag, popStyle, explicitCloseNames]

/-- Claim C7: closing-tag dispatch is asymmetric by name.  For a name in the
    explicit list, one frame is popped when more than the default frame
    remains and the unbalanced-closing-tag error is raised otherwise; for
    any other name, one frame is popped when more than the default frame
    remains and nothing happens otherwise. -/
theorem c7_close_dispatch (name : Str) (st : PState) :
    (explicitCloseNames.contains name = true →
      (st.styleStack.length > 1 →
        handleCloseTag name st = .ok { st with styleStack := st.styleStack.tail })
      ∧ (¬ st.styleStack.length > 1 →
        handleCloseTag name st = .err .unbalancedClose))
    ∧ (explicitCloseNames.contains name = false →
      (st.styleStack.length > 1 →
        handleCloseTag name st = .ok { st with styleStack := st.styleStack.tail })
      ∧ (¬ st.styleStack.length > 1 →
        handleCloseTag name st = .ok st)) := by
  constructor
  · intro hmem
    have hmem2 : name ∈ explicitCloseNames := by simpa using hmem
    constructor
    · intro hlen
      simp [handleCloseTag, hmem2, popStyle, hlen]
    · intro hlen
      simp [handleCloseTag, hmem2, popStyle, hlen]
  · intro hmem
    have hmem2 : ¬ name ∈ explicitCloseNames := by simpa using hmem
    constructor
    · intro hlen
      simp [handleCloseTag, hmem2, hlen]
    · intro hlen
      simp [handleCloseTag, hmem2, hlen]

/-- Witness for c7_close_dispatch: at the concrete explicit name "hover"
    with only the default frame, the close errors; at the unrecognized name
    "foo" in the same state, the close is a silent no-op. -/
theorem c7_close_dispatch_witness :
    handleCloseTag (str "hover") ⟨[], [defaultStyle], []⟩ = .err .unbalancedClose
    ∧ handleCloseTag (str "foo") ⟨[], [defaultStyle], []⟩
        = .ok ⟨[], [defaultStyle], []⟩ := by
  constructor
  · exact ((c7_close_dispatch (str "hover") ⟨[], [defaultStyle], []⟩).1 (by decide)).2
      (by decide)
  · exact ((c7_close_dispatch (str "foo") ⟨[], [defaultStyle], []⟩).2 (by decide)).2
      (by decide)

/-- Claim C10: parsing the empty string succeeds with an empty array
    component (zero parts; neither an error nor a plain-text component). -/
theorem c10_empty_input :
    mmParse [] = .ok (.arr []) := rfl

/-- Claim C8 counterexample: on the empty input (which contains no '<'),
    parsing does not yield one plain-text component equal to the input; it
    yields the empty array component. -/
theorem c8_empty_not_plain_text :
    mmParse [] = .ok (.arr []) ∧ Component.arr [] ≠ Component.text [] := by
  refine ⟨rfl, fun h => ?_⟩
  exact Component.noConfusion h

theorem escChar_eq_spec (c : Char) : escChar c = escSpecChar c := by
  simp only [escChar, escSpecChar, beq_iff_eq]

theorem serializeTextLoop_spec (t out : Str) :
    serializeTextLoop out t = out ++ t.flatMap escChar := by
  induction t generalizing out with
  | nil => simp [serializeTextLoop]
  | cons c t ih => simp [serializeTextLoop, ih, List.flatMap_cons]

/-- Claim C9: serializing a text leaf escapes '<' to &lt;, '>' to &gt;, '&'
    to &amp;, and copies every other character verbatim (the code's
    character loop refines the spec's per-character mapping); in particular
    a literal "a<b>c" serializes to "a&lt;b&gt;c" and never to a live tag. -/
theorem c9_text_escaping :
    (∀ (out t : Str), serializeTextLoop out t = out ++ t.flatMap escSpecChar)
    ∧ mmSerialize (Component.text (str "a<b>c")) = str "a&lt;b&gt;c" := by
  constructor
  · intro out t
    rw [serializeTextLoop_spec]
    congr 1
    exact List.flatMap_congr (fun c _ => escChar_eq_spec c)
  · rfl

/-- Claim C6: reaching the end of input with unpopped non-default frames is
    not an error.  Concretely, the loop run of parse("<red>X") ends with the
    red frame still on the stack above the default frame and the "X"
    component emitted, the overall parse succeeds, and in general a
    successful loop run yields a successful parse that uses only the
    accumulated parts, discarding the style stack. -/
theorem c6_pending_frames_discarded :
    parseLoop defaultConfig 31 ⟨str "<red>X", [defaultStyle], []⟩
      = .ok ⟨[], [{ defaultStyle with color := some (.Named .red) }, defaultStyle],
             [.obj { text := some (str "X"), color := some (.Named .red) }]⟩
    ∧ mmParse (str "<red>X")
      = .ok (.obj { text := some (str "X"), color := some (.Named .red) })
    ∧ (∀ (cfg : MiniMessageConfig) (fuel : Nat) (input : Str) (st : PState),
        parseLoop cfg fuel ⟨input, [defaultStyle], []⟩ = .ok st →
        parseFuel cfg (fuel + 1) input = .ok (finishParts st.parts)) := by
  refine ⟨rfl, rfl, fun cfg fuel input st h => ?_⟩
  simp [parseFuel, h]

/-- Witness for c6_pending_frames_discarded: the general discard property
    applied to the concrete loop run of parse("<red>X"). -/
theorem c6_pending_frames_witness :
    parseFuel defaultConfig (31 + 1) (str "<red>X")
      = .ok (.obj { text := some (str "X"), color := some (.Named .red) }) :=
  c6_pending_frames_discarded.2.2 defaultConfig 31 (str "<red>X")
    ⟨[], [{ defaultStyle with color := some (.Named .red) }, defaultStyle],
     [.obj { text := some (str "X"), color := some (.Named .red) }]⟩
    c6_pending_frames_discarded.1

theorem csize_ascii {c : Char} (h : c.toNat < 128) : csize c = 1 := by
  simp [csize]
  omega

theorem byteLen_append (a b : Str) : byteLen (a ++ b) = byteLen a + byteLen b := by
  induction a with
  | nil => simp [byteLen]
  | cons c a ih => simp [byteLen, ih]; omega

theorem csize_pos (c : Char) : 1 ≤ csize c := by
  simp only [csize]
  split <;> try omega
  split <;> try omega
  split <;> omega

theorem byteLen_pos {s : Str} (h : s ≠ []) : 1 ≤ byteLen s := by
  cases s with
  | nil => exact absurd rfl h
  | cons c rest =>
    have := csize_pos c
    simp [byteLen]
    omega

/-- A literal run of single-byte characters other than '<' is consumed
    whole by the parse_text scanning loop under the default configuration,
    stopping exactly at the end of input or at the next '<'. -/
theorem parseTextLoop_run (t : Str) (r acc : Str)
    (ht : ∀ c ∈ t, csize c = 1 ∧ c ≠ '<')
    (hr : r = [] ∨ headIs r '<' = true) :
    parseTextLoop defaultConfig acc (t ++ r) = .ok (acc ++ t, r) := by
  induction t generalizing acc with
  | nil =>
    rcases hr with rfl | hr
    · simp [parseTextLoop]
    · cases r with
      | nil => simp [parseTextLoop]
      | cons c r2 =>
        have hc : c = '<' := by simpa [headIs] using hr
        subst hc
        simp [parseTextLoop]
  | cons c t ih =>
    have hc := ht c (by simp)
    have hlt : (c == '<') = false := by
      simpa using hc.2
    have hlegacy : defaultConfig.parseLegacyColors = false := rfl
    simp only [List.cons_append, parseTextLoop, hlt, hlegacy, Bool.false_and,
      Bool.or_false, Bool.false_eq_true, if_false, hc.1]
    rw [if_pos (show ((1 : Nat) == 1) = true from rfl)]
    simp only [List.append_eq]
    rw [ih (acc ++ [c]) (fun d hd => ht d (List.mem_cons_of_mem _ hd))]
    simp

/-- Claim C8 as amended: for every nonempty input of single-byte (ASCII)
    characters containing no '<', parsing with the default configuration
    succeeds and yields exactly one plain-text component whose text is the
    entire input.  (A multi-byte character would panic the byte-stepping
    scanner, see c3_multibyte_panics, and the empty input yields an empty
    array, see c8_empty_not_plain_text.) -/
theorem c8_amended_ascii_no_lt (input : Str) (hne : input ≠ [])
    (hch : ∀ c ∈ input, c.toNat < 128 ∧ c ≠ '<') :
    mmParse input = .ok (Component.text input) := by
  have hloop : parseTextLoop defaultConfig [] input = .ok (input, []) := by
    have h := parseTextLoop_run input [] []
      (fun c hc => ⟨csize_ascii (hch c hc).1, (hch c hc).2⟩) (Or.inl rfl)
    simpa using h
  have hbl := byteLen_pos hne
  obtain ⟨f, hf⟩ : ∃ f, 4 * (byteLen input + 2) = (f + 1) + 1 :=
    ⟨4 * (byteLen input + 2) - 2, by omega⟩
  have hemp : input.isEmpty = false := by
    cases input with
    | nil => exact absurd rfl hne
    | cons c r => rfl
  have hhead : headIs input '<' = false := by
    cases input with
    | nil => exact absurd rfl hne
    | cons c r =>
      simpa [headIs] using (hch c (by simp)).2
  rw [mmParse, hf, parseFuel]
  rw [parseLoop]
  simp only [hemp, hhead, Bool.false_eq_true, if_false, parseText, hloop,
    PRes.bind_ok]
  cases f with
  | zero => omega
  | succ f2 =>
    simp only [parseLoop, List.isEmpty_nil, if_true, PRes.bind_ok]
    rfl

/-- Witness for c8_amended_ascii_no_lt at the input "hi". -/
theorem c8_amended_witness :
    mmParse (str "hi") = .ok (Component.text (str "hi")) :=
  c8_amended_ascii_no_lt (str "hi") (by decide) (by decide)

/-! Lemmas for the round-trip claim: re-parsing the serializer's output. -/

theorem tagchar_beq_false {c x : Char} (h : isTagNameChar c = true)
    (hx : isTagNameChar x = false) : (c == x) = false := by
  rcases eq_or_ne c x with rfl | hne
  · rw [h] at hx
    exact absurd hx (by simp)
  · simpa using hne

theorem validTagName_parts {nm : Str} (hv : validTagName nm = true) :
    nm.isEmpty = false ∧ nm.all isTagNameChar = true ∧ nm.map lowerAscii = nm := by
  rw [validTagName, Bool.and_eq_true, Bool.and_eq_true] at hv
  refine ⟨?_, hv.1.2, eq_of_beq hv.2⟩
  have := hv.1.1
  simpa using this

theorem readTagNameLoop_spec (nm : Str) (d : Char) (r : Str)
    (hnm : nm.all isTagNameChar = true) (hd : isTagNameChar d = false) :
    readTagNameLoop (nm ++ d :: r) = (nm, d :: r) := by
  induction nm with
  | nil => simp [readTagNameLoop, hd]
  | cons c nm ih =>
    rw [List.all_cons, Bool.and_eq_true] at hnm
    simp [readTagNameLoop, hnm.1, ih hnm.2]

theorem readTagName_spec (nm : Str) (d : Char) (r : Str)
    (hv : validTagName nm = true) (hd : isTagNameChar d = false) :
    readTagName (nm ++ d :: r) = .ok (nm, d :: r) := by
  obtain ⟨hne, hall, hmap⟩ := validTagName_parts hv
  rw [readTagName, readTagNameLoop_spec nm d r hall hd]
  simp [hne, hmap]

theorem headIs_valid_ne_slash {nm : Str} (hv : validTagName nm = true) (x : Str) :
    headIs (nm ++ x) '/' = false := by
  obtain ⟨hne, hall, _⟩ := validTagName_parts hv
  cases nm with
  | nil => simp at hne
  | cons c nm =>
    rw [List.all_cons, Bool.and_eq_true] at hall
    simpa [headIs] using tagchar_beq_false hall.1 (by decide)

theorem handleClose_pop (nm : Str) (st : PState)
    (h : 2 ≤ st.styleStack.length) :
    handleCloseTag nm st = .ok { st with styleStack := st.styleStack.tail } := by
  have h1 : st.styleStack.length > 1 := by omega
  by_cases hc : nm ∈ explicitCloseNames <;>
    simp [handleCloseTag, popStyle, hc, h1]

theorem leafify (t : Str) (sty : Style) :
    ((Component.text t).color sty.color).decorations (collectDecorations sty)
      = mkTextLeaf t sty := by
  rcases sty with ⟨col, fnt, b, i, u, stk, ob, ins, ce, he⟩
  cases b <;> cases i <;> cases u <;> cases stk <;> cases ob <;> rfl

theorem loopEnd (cfg : MiniMessageConfig) (f : Nat) (stack : List Style)
    (parts : List Component) :
    parseLoop cfg (f + 1) ⟨[], stack, parts⟩ = .ok ⟨[], stack, parts⟩ := by
  simp [parseLoop]

theorem stepText (f : Nat) (t r : Str) (stack : List Style)
    (parts : List Component) (hne : t ≠ [])
    (ht : ∀ c ∈ t, csize c = 1 ∧ c ≠ '<')
    (hr : r = [] ∨ headIs r '<' = true) :
    parseLoop defaultConfig (f + 2) ⟨t ++ r, stack, parts⟩
      = parseLoop defaultConfig (f + 1)
          ⟨r, stack, mkTextLeaf t (stack.headD defaultStyle) :: parts⟩ := by
  have hloop := parseTextLoop_run t r [] ht hr
  obtain ⟨c0, t0, rfl⟩ := List.exists_cons_of_ne_nil hne
  have hloop2 : parseTextLoop defaultConfig [] (c0 :: (t0 ++ r))
      = .ok (c0 :: t0, r) := by simpa using hloop
  have hc0 : (c0 == '<') = false := by
    simpa using (ht c0 (by simp)).2
  rw [show f + 2 = (f + 1) + 1 from rfl, parseLoop]
  simp only [List.cons_append, List.isEmpty_cons, Bool.false_eq_true, if_false,
    headIs, hc0]
  rw [parseText]
  simp only [hloop2, PRes.bind_ok, List.isEmpty_cons, Bool.false_eq_true, if_false]
  rw [leafify]
  rfl

theorem changeName_valid (ct : ChangeTag) : validTagName (changeName ct) = true := by
  cases ct with
  | colorC n => cases n <;> decide
  | boldC => decide
  | italicC => decide
  | underlinedC => decide
  | strikethroughC => decide
  | obfuscatedC => decide

theorem handleOpen_change (cfg : MiniMessageConfig) (f : Nat) (ct : ChangeTag)
    (st : PState) :
    handleOpenTag cfg (f + 1) (changeName ct) [] false st
      = .ok { st with styleStack := applyChange ct (currentStyle st) :: st.styleStack } := by
  cases ct with
  | colorC n => cases n <;> rfl
  | boldC => rfl
  | italicC => rfl
  | underlinedC => rfl
  | strikethroughC => rfl
  | obfuscatedC => rfl

theorem stepOpen (cfg : MiniMessageConfig) (f : Nat) (ct : ChangeTag) (r : Str)
    (stack : List Style) (parts : List Component) :
    parseLoop cfg (f + 3) ⟨'<' :: (changeName ct ++ '>' :: r), stack, parts⟩
      = parseLoop cfg (f + 2)
          ⟨r, applyChange ct (stack.headD defaultStyle) :: stack, parts⟩ := by
  have hv := changeName_valid ct
  rw [show f + 3 = (f + 2) + 1 from rfl, parseLoop]
  simp only [List.isEmpty_cons, Bool.false_eq_true, if_false, headIs,
    beq_self_eq_true, if_true]
  rw [show f + 2 = (f + 1) + 1 from rfl, parseTag]
  simp only [List.tail_cons]
  rw [headIs_valid_ne_slash hv]
  simp only [Bool.false_eq_true, if_false]
  rw [readTagName_spec _ '>' r hv (by decide)]
  simp only [PRes.bind_ok]
  rw [argsLoop]
  simp only [headIs, beq_self_eq_true, Bool.not_true, Bool.false_and,
    Bool.false_eq_true, if_false, PRes.bind_ok]
  simp only [show (('>' : Char) == '/') = false from rfl, Bool.false_eq_true,
    if_false, expectChar, beq_self_eq_true, if_true, PRes.bind_ok]
  rw [handleOpen_change]
  simp only [PRes.bind_ok]
  rfl

theorem stepClose (cfg : MiniMessageConfig) (f : Nat) (nm : Str) (r : Str)
    (s1 s2 : Style) (ss : List Style) (parts : List Component)
    (hv : validTagName nm = true) :
    parseLoop cfg (f + 2) ⟨'<' :: '/' :: (nm ++ '>' :: r), s1 :: s2 :: ss, parts⟩
      = parseLoop cfg (f + 1) ⟨r, s2 :: ss, parts⟩ := by
  rw [show f + 2 = (f + 1) + 1 from rfl, parseLoop]
  simp only [List.isEmpty_cons, Bool.false_eq_true, if_false, headIs,
    beq_self_eq_true, if_true]
  rw [show f + 1 = f + 1 from rfl, parseTag]
  simp only [List.tail_cons, headIs, beq_self_eq_true, if_true]
  rw [readTagName_spec _ '>' r hv (by decide)]
  simp only [PRes.bind_ok]
  rw [handleClose_pop _ _ (by simp)]
  simp only [PRes.bind_ok, List.tail_cons, expectChar, beq_self_eq_true,
    if_true]

theorem pushFrames_length (chs : List ChangeTag) (stack : List Style) :
    (pushFrames chs stack).length = chs.length + stack.length := by
  induction chs generalizing stack with
  | nil => simp [pushFrames]
  | cons ct chs ih =>
    rw [pushFrames, ih]
    simp
    omega

theorem pushFrames_drop (chs : List ChangeTag) (stack : List Style) :
    (pushFrames chs stack).drop chs.length = stack := by
  induction chs generalizing stack with
  | nil => simp [pushFrames]
  | cons ct chs ih =>
    rw [pushFrames]
    rw [show (ct :: chs).length = chs.length + 1 from rfl]
    rw [← List.drop_drop 1 chs.length
      (pushFrames chs (applyChange ct (stack.headD defaultStyle) :: stack))]
    rw [ih]
    rfl

theorem pushFrames_head (chs : List ChangeTag) (s : Style) (ss : List Style) :
    (pushFrames chs (s :: ss)).headD defaultStyle = foldStyle chs s := by
  induction chs generalizing s ss with
  | nil => simp [pushFrames, foldStyle]
  | cons ct chs ih =>
    rw [pushFrames]
    simp only [List.headD_cons]
    rw [ih]
    rfl

theorem opensRun (cfg : MiniMessageConfig) (f : Nat) (chs : List ChangeTag)
    (r : Str) (stack : List Style) (parts : List Component) :
    parseLoop cfg (chs.length + (f + 2))
        ⟨openTagsStr (chs.map changeName) ++ r, stack, parts⟩
      = parseLoop cfg (f + 2) ⟨r, pushFrames chs stack, parts⟩ := by
  induction chs generalizing stack with
  | nil => simp [openTagsStr, pushFrames]
  | cons ct chs ih =>
    have hshape : openTagsStr ((ct :: chs).map changeName) ++ r
        = '<' :: (changeName ct ++ '>' :: (openTagsStr (chs.map changeName) ++ r)) := by
      simp [openTagsStr]
    rw [hshape]
    rw [show (ct :: chs).length + (f + 2) = (chs.length + f) + 3 from by
      simp
      omega]
    rw [stepOpen]
    rw [show chs.length + f + 2 = chs.length + (f + 2) from by omega]
    rw [ih]
    rfl

theorem closesRun (cfg : MiniMessageConfig) (f : Nat) (names : List Str)
    (r : Str) (stack : List Style) (parts : List Component)
    (hv : ∀ nm ∈ names, validTagName nm = true)
    (hlen : names.length + 1 ≤ stack.length) :
    parseLoop cfg (names.length + (f + 1)) ⟨closeSeq names ++ r, stack, parts⟩
      = parseLoop cfg (f + 1) ⟨r, stack.drop names.length, parts⟩ := by
  induction names generalizing stack with
  | nil => simp [closeSeq]
  | cons nm names ih =>
    cases stack with
    | nil => simp at hlen
    | cons s1 rest =>
      cases rest with
      | nil => simp at hlen
      | cons s2 ss =>
        have hshape : closeSeq (nm :: names) ++ r
            = '<' :: '/' :: (nm ++ '>' :: (closeSeq names ++ r)) := by
          simp [closeSeq]
        have hlen2 : names.length + 1 ≤ (s2 :: ss).length := by
          simp at hlen ⊢
          omega
        rw [hshape]
        rw [show (nm :: names).length + (f + 1) = (names.length + f) + 2 from by
          simp
          omega]
        rw [stepClose cfg (names.length + f) nm _ s1 s2 ss parts
          (hv nm (by simp))]
        rw [show names.length + f + 1 = names.length + (f + 1) from by omega]
        rw [ih (s2 :: ss) (fun x hx => hv x (List.mem_cons_of_mem nm hx)) hlen2]
        rfl

theorem styledCharsList_append (a b : List Component) :
    styledCharsList (a ++ b) = styledCharsList a ++ styledCharsList b := by
  induction a with
  | nil => simp [styledCharsList]
  | cons c a ih => simp [styledCharsList, ih]

theorem finish_chars (ps : List Component) :
    styledChars (finishParts ps) = styledCharsList ps.reverse := by
  rw [finishParts]
  cases hr : ps.reverse with
  | nil => simp [styledChars, styledCharsList]
  | cons p rest =>
    cases rest with
    | nil => simp [styledCharsList, styledChars]
    | cons q rest2 => simp [styledChars]

theorem simpleLeaf_parts {o : ComponentObject} (h : simpleLeaf (.obj o) = true) :
    (∃ tx, o.text = some tx ∧ tx.isEmpty = false ∧ tx.all cleanChar = true)
    ∧ o.extra = none
    ∧ okColorOpt o.color = true ∧ okDecoOpt o.bold = true
    ∧ okDecoOpt o.italic = true ∧ okDecoOpt o.underlined = true
    ∧ okDecoOpt o.strikethrough = true ∧ okDecoOpt o.obfuscated = true := by
  rw [simpleLeaf] at h
  rcases htx : o.text with _ | tx
  · rw [htx] at h
    simp at h
  · rw [htx] at h
    simp only [Bool.and_eq_true, Bool.not_eq_true', Option.isNone_iff_eq_none] at h
    refine ⟨⟨tx, rfl, ?_, ?_⟩, ?_, ?_, ?_, ?_, ?_, ?_, ?_⟩ <;> tauto

theorem okColor_cases {c : Option Color} (h : okColorOpt c = true) :
    c = none ∨ ∃ n, c = some (.Named n) := by
  rcases hc : c with _ | c2
  · exact .inl rfl
  · rcases c2 with n | hx
    · exact .inr ⟨n, rfl⟩
    · rw [hc] at h
      simp [okColorOpt] at h

theorem okDeco_cases {b : Option Bool} (h : okDecoOpt b = true) :
    b = none ∨ b = some true := by
  rcases hb : b with _ | b2
  · exact .inl rfl
  · cases b2
    · rw [hb] at h
      simp [okDecoOpt] at h
    · exact .inr rfl

theorem chsOf_spec (o : ComponentObject) (hsimple : simpleLeaf (.obj o) = true) :
    styleChanges o defaultStyle = (chsOf o).map changeName
    ∧ foldStyle (chsOf o) defaultStyle
        = { defaultStyle with
            color := o.color
            bold := o.bold
            italic := o.italic
            underlined := o.underlined
            strikethrough := o.strikethrough
            obfuscated := o.obfuscated }
    ∧ (isPlainLeaf (.obj o) = false → chsOf o ≠ []) := by
  obtain ⟨_, _, hokc, hokb, hoki, hoku, hoks, hoko⟩ := simpleLeaf_parts hsimple
  rcases okColor_cases hokc with hc | ⟨n, hc⟩ <;>
    rcases okDeco_cases hokb with hb | hb <;>
    rcases okDeco_cases hoki with hi | hi <;>
    rcases okDeco_cases hoku with hu | hu <;>
    rcases okDeco_cases hoks with hs | hs <;>
    rcases okDeco_cases hoko with ho | ho <;>
    exact ⟨by simp [styleChanges, chsOf, defaultStyle, changeName, getNamedColor,
        hc, hb, hi, hu, hs, ho],
      by simp [chsOf, foldStyle, applyChange, defaultStyle, hc, hb, hi, hu, hs, ho],
      by simp [chsOf, isPlainLeaf, hsimple, hc, hb, hi, hu, hs, ho]⟩

theorem cleanChar_parts {c : Char} (h : cleanChar c = true) :
    c.toNat < 128 ∧ c ≠ '<' ∧ c ≠ '>' ∧ c ≠ '&' := by
  rw [cleanChar, Bool.and_eq_true, Bool.and_eq_true, Bool.and_eq_true] at h
  refine ⟨by simpa using h.1.1.1, ?_, ?_, ?_⟩
  · simpa using h.1.1.2
  · simpa using h.1.2
  · simpa using h.2

theorem cleanChar_step {c : Char} (h : cleanChar c = true) :
    csize c = 1 ∧ c ≠ '<' := by
  obtain ⟨ha, hlt, _, _⟩ := cleanChar_parts h
  exact ⟨csize_ascii ha, hlt⟩

theorem escChar_clean {t : Str} (h : t.all cleanChar = true) :
    t.flatMap escChar = t := by
  induction t with
  | nil => simp
  | cons c t ih =>
    rw [List.all_cons, Bool.and_eq_true] at h
    obtain ⟨_, hlt, hgt, hamp⟩ := cleanChar_parts h.1
    simp [List.flatMap_cons, escChar, hlt, hgt, hamp, ih h.2]

theorem serializeText_clean (s : SState) {t : Str} (h : t.all cleanChar = true) :
    serializeText s t = { s with output := s.output ++ t } := by
  rw [serializeText, serializeTextLoop_spec, escChar_clean h]

theorem simpleLeaf_is_obj {c : Component} (h : simpleLeaf c = true) :
    ∃ o, c = .obj o := by
  cases c with
  | str s => simp [simpleLeaf] at h
  | arr cs => simp [simpleLeaf] at h
  | obj o => exact ⟨o, rfl⟩

theorem serialize_simpleLeaf (o : ComponentObject) (out : Str)
    (hsimple : simpleLeaf (.obj o) = true) :
    serializeComponent ⟨out, defaultStyle⟩ (.obj o)
      = ⟨out ++ blockOf (.obj o), defaultStyle⟩ := by
  obtain ⟨⟨tx, htx, htxne, htxclean⟩, hex, _⟩ := simpleLeaf_parts hsimple
  rcases o with ⟨ct, t, tr, fbk, w, sc, sel, sep, kb, nb, src, itp, blk, ent,
    stg, ex, col, fnt, b, i, u, stk, ob, ins, ce, he⟩
  subst htx
  subst hex
  rw [serializeComponent]
  simp only [serializeText_clean _ htxclean, blockOf]
  simp [List.append_assoc]

theorem serializeList_simple (ls : List Component) (out : Str)
    (h : ls.all simpleLeaf = true) :
    serializeList ⟨out, defaultStyle⟩ ls = ⟨out ++ blocksStr ls, defaultStyle⟩ := by
  induction ls generalizing out with
  | nil => simp [serializeList, blocksStr]
  | cons c ls ih =>
    rw [List.all_cons, Bool.and_eq_true] at h
    obtain ⟨o, rfl⟩ := simpleLeaf_is_obj h.1
    rw [serializeList, serialize_simpleLeaf o out h.1, ih _ h.2]
    simp [blocksStr]

theorem mmSerialize_simple {c : Component} (h : simpleTree c = true) :
    mmSerialize c = blocksStr (leavesOf c) := by
  cases c with
  | str s => simp [simpleTree, simpleLeaf] at h
  | arr cs =>
    have h2 : cs.all simpleLeaf = true := by simpa [simpleTree] using h
    rw [mmSerialize, serializeComponent, serializeList_simple cs [] h2]
    simp [leavesOf]
  | obj o =>
    have h2 : simpleLeaf (.obj o) = true := by simpa [simpleTree] using h
    rw [mmSerialize, serialize_simpleLeaf o [] h2]
    simp [leavesOf, blocksStr]

theorem isPlainLeaf_parts {o : ComponentObject} (hp : isPlainLeaf (.obj o) = true) :
    simpleLeaf (.obj o) = true ∧ o.color = none ∧ o.bold = none ∧ o.italic = none
    ∧ o.underlined = none ∧ o.strikethrough = none ∧ o.obfuscated = none := by
  rw [isPlainLeaf] at hp
  simp only [Bool.and_eq_true, Option.isNone_iff_eq_none] at hp
  refine ⟨?_, ?_, ?_, ?_, ?_, ?_, ?_⟩ <;> tauto

theorem plain_changes {o : ComponentObject} (hp : isPlainLeaf (.obj o) = true) :
    styleChanges o defaultStyle = [] := by
  obtain ⟨_, hc, hb, hi, hu, hs, ho⟩ := isPlainLeaf_parts hp
  simp [styleChanges, hc, hb, hi, hu, hs, ho]

theorem blockOf_plain {o : ComponentObject} {tx : Str}
    (hp : isPlainLeaf (.obj o) = true) (htx : o.text = some tx) :
    blockOf (.obj o) = tx := by
  simp [blockOf, plain_changes hp, openTagsStr, closeTagsStr, closeSeq, htx]

theorem styledChars_obj (o : ComponentObject) (tx : Str) (htx : o.text = some tx)
    (hex : o.extra = none) :
    styledChars (.obj o) = tx.map (fun ch =>
      (ch, (⟨o.color, o.bold, o.italic, o.underlined, o.strikethrough,
             o.obfuscated⟩ : LeafStyle))) := by
  rcases o with ⟨ct, t, tr, fbk, w, sc, sel, sep, kb, nb, src, itp, blk, ent,
    stg, ex, col, fnt, b, i, u, stk, ob, ins, ce, he⟩
  subst htx
  subst hex
  simp [styledChars]

theorem mkTextLeaf_chars (t : Str) (sty : Style) :
    styledChars (mkTextLeaf t sty) = t.map (fun ch =>
      (ch, (⟨sty.color, sty.bold, sty.italic, sty.underlined, sty.strikethrough,
             sty.obfuscated⟩ : LeafStyle))) := by
  simp [mkTextLeaf, styledChars]

theorem blocksStr_styled_head {c : Component} (rest : List Component)
    (hs : simpleLeaf c = true) (hp : isPlainLeaf c = false) :
    headIs (blocksStr (c :: rest)) '<' = true := by
  obtain ⟨o, rfl⟩ := simpleLeaf_is_obj hs
  obtain ⟨hsc, _, hne⟩ := chsOf_spec o hs
  have hchne := hne hp
  cases hch : chsOf o with
  | nil => exact absurd hch hchne
  | cons ct cts =>
    rw [blocksStr, blockOf, hsc, hch]
    simp [openTagsStr, headIs]

theorem plain_is_obj {c : Component} (h : isPlainLeaf c = true) :
    ∃ o, c = .obj o := by
  cases c with
  | str s => simp [isPlainLeaf] at h
  | arr cs => simp [isPlainLeaf] at h
  | obj o => exact ⟨o, rfl⟩

theorem blocksStr_append (a b : List Component) :
    blocksStr (a ++ b) = blocksStr a ++ blocksStr b := by
  induction a with
  | nil => simp [blocksStr]
  | cons c a ih => simp [blocksStr, ih]

theorem mkPlain_simple {t : Str} (hne : t.isEmpty = false)
    (hcl : t.all cleanChar = true) :
    simpleLeaf (.obj { text := some t }) = true := by
  simp [simpleLeaf, hne, hcl, okColorOpt, okDecoOpt]

theorem mkPlain_isPlain {t : Str} (hne : t.isEmpty = false)
    (hcl : t.all cleanChar = true) :
    isPlainLeaf (.obj { text := some t }) = true := by
  simp [isPlainLeaf, mkPlain_simple hne hcl]

theorem mkPlain_chars (t : Str) :
    styledChars (.obj { text := some t }) = t.map (fun ch => (ch, plainStyle)) := by
  rw [styledChars_obj _ t rfl rfl]
  rfl

theorem mkPlain_block (t : Str) : blockOf (.obj { text := some t }) = t := by
  simp [blockOf, styleChanges, defaultStyle, openTagsStr, closeTagsStr, closeSeq]

theorem pendStr_getD (p : Option Str) (tx : Str) :
    pendStr (some (p.getD [] ++ tx)) = pendStr p ++ tx := by
  cases p <;> rfl

theorem mergeAux_facts : ∀ (ls : List Component) (p : Option Str),
    ls.all simpleLeaf = true → pendOK p = true →
    (mergeAux p ls).all simpleLeaf = true
    ∧ blocksStr (mergeAux p ls) = pendStr p ++ blocksStr ls
    ∧ styledCharsList (mergeAux p ls)
        = (pendStr p).map (fun ch => (ch, plainStyle)) ++ styledCharsList ls
    ∧ noAdjPlain (mergeAux p ls) = true := by
  intro ls
  induction ls with
  | nil =>
    intro p hall hp
    rcases p with _ | t
    · simp [mergeAux, flushP, blocksStr, styledCharsList, noAdjPlain, pendStr]
    · rw [pendOK, Bool.and_eq_true] at hp
      have hne : t.isEmpty = false := by simpa using hp.1
      refine ⟨?_, ?_, ?_, ?_⟩
      · simp [mergeAux, flushP, mkPlain_simple hne hp.2]
      · simp [mergeAux, flushP, blocksStr, mkPlain_block, pendStr]
      · simp [mergeAux, flushP, styledCharsList, mkPlain_chars, pendStr]
      · simp [mergeAux, flushP, noAdjPlain, headPlain]
  | cons c rest ih =>
    intro p hall hp
    rw [List.all_cons, Bool.and_eq_true] at hall
    obtain ⟨hsc, hrest⟩ := hall
    by_cases hpc : isPlainLeaf c = true
    · obtain ⟨o, rfl⟩ := plain_is_obj hpc
      obtain ⟨hso, hcol, hb, hi, hu, hk, ho⟩ := isPlainLeaf_parts hpc
      obtain ⟨⟨tx, htx, htne, htcl⟩, hex, _⟩ := simpleLeaf_parts hso
      have htext : textOfC (.obj o) = tx := by simp [textOfC, htx]
      have hpok2 : pendOK (some (p.getD [] ++ tx)) = true := by
        rcases p with _ | t
        · simpa [pendOK, htcl] using htne
        · rw [pendOK, Bool.and_eq_true] at hp
          have hne : t.isEmpty = false := by simpa using hp.1
          have htxne : tx ≠ [] := by simpa using htne
          simp [pendOK, List.all_append, htcl, hp.2, hne, htxne]
      obtain ⟨ja, jb, jc, jd⟩ := ih (some (p.getD [] ++ tx)) hrest hpok2
      rw [mergeAux, if_pos hpc, htext]
      refine ⟨ja, ?_, ?_, jd⟩
      · rw [jb, pendStr_getD]
        simp [blocksStr, blockOf_plain hpc htx, List.append_assoc]
      · rw [jc, pendStr_getD]
        have hchars : styledChars (.obj o) = tx.map (fun ch => (ch, plainStyle)) := by
          rw [styledChars_obj _ tx htx hex]
          simp [hcol, hb, hi, hu, hk, ho, plainStyle]
        simp [styledCharsList, hchars, List.map_append, List.append_assoc]
    · have hpcf : isPlainLeaf c = false := by simpa using hpc
      obtain ⟨ja, jb, jc, jd⟩ := ih none hrest (by simp [pendOK])
      rw [mergeAux, if_neg (by simp [hpcf])]
      have hfa : (flushP p).all simpleLeaf = true := by
        rcases p with _ | t
        · simp [flushP]
        · rw [pendOK, Bool.and_eq_true] at hp
          have hne : t.isEmpty = false := by simpa using hp.1
          simp [flushP, mkPlain_simple hne hp.2]
      have hfb : blocksStr (flushP p) = pendStr p := by
        rcases p with _ | t
        · simp [flushP, blocksStr, pendStr]
        · simp [flushP, blocksStr, mkPlain_block, pendStr]
      have hfc : styledCharsList (flushP p)
          = (pendStr p).map (fun ch => (ch, plainStyle)) := by
        rcases p with _ | t
        · simp [flushP, styledCharsList, pendStr]
        · simp [flushP, styledCharsList, mkPlain_chars, pendStr]
      refine ⟨?_, ?_, ?_, ?_⟩
      · simp only [List.all_append, List.all_cons, Bool.and_eq_true]
        exact ⟨hfa, hsc, ja⟩
      · rw [blocksStr_append, hfb]
        simp [blocksStr, jb, pendStr]
      · rw [styledCharsList_append, hfc]
        simp [styledCharsList, jc, pendStr]
      · rcases p with _ | t
        · simp only [flushP, List.nil_append]
          rw [noAdjPlain, Bool.and_eq_true]
          exact ⟨by simp [hpcf], jd⟩
        · simp only [flushP, List.cons_append, List.nil_append]
          rw [noAdjPlain, Bool.and_eq_true]
          refine ⟨by simp [headPlain, hpcf], ?_⟩
          rw [noAdjPlain, Bool.and_eq_true]
          exact ⟨by simp [hpcf], jd⟩

theorem mergePlain_facts (ls : List Component) (hall : ls.all simpleLeaf = true) :
    (mergePlain ls).all simpleLeaf = true
    ∧ blocksStr (mergePlain ls) = blocksStr ls
    ∧ styledCharsList (mergePlain ls) = styledCharsList ls := by
  obtain ⟨a, b, c2, _⟩ := mergeAux_facts ls none hall (by simp [pendOK])
  refine ⟨a, ?_, ?_⟩
  · simpa [pendStr] using b
  · simpa [pendStr] using c2

theorem mergePlain_noAdj (ls : List Component) (hall : ls.all simpleLeaf = true) :
    noAdjPlain (mergePlain ls) = true :=
  (mergeAux_facts ls none hall (by simp [pendOK])).2.2.2

theorem byteLen_openTags_ge (names : List Str) :
    names.length ≤ byteLen (openTagsStr names) := by
  induction names with
  | nil => simp [openTagsStr]
  | cons n ns ih =>
    have h1 := csize_pos '<'
    have h2 := csize_pos '>'
    simp only [openTagsStr, List.cons_append, List.append_eq, byteLen,
      byteLen_append, List.length_cons]
    omega

theorem needFuel_le (ls : List Component) (hall : ls.all simpleLeaf = true) :
    needFuel ls ≤ 2 * byteLen (blocksStr ls) := by
  induction ls with
  | nil => simp [needFuel, blocksStr, byteLen]
  | cons c rest ih =>
    rw [List.all_cons, Bool.and_eq_true] at hall
    obtain ⟨o, rfl⟩ := simpleLeaf_is_obj hall.1
    obtain ⟨⟨tx, htx, htne, _⟩, _⟩ := simpleLeaf_parts hall.1
    have htxb : 1 ≤ byteLen tx := byteLen_pos (by simpa using htne)
    have hop := byteLen_openTags_ge (styleChanges o defaultStyle)
    have ihr := ih hall.2
    simp only [needFuel, leafFuel, blocksStr, byteLen_append, blockOf, htx,
      Option.getD_some]
    omega

theorem roundTripLoop : ∀ (ls : List Component) (f : Nat) (parts : List Component),
    ls.all simpleLeaf = true → noAdjPlain ls = true → 1 ≤ f →
    ∃ parts2,
      parseLoop defaultConfig (f + needFuel ls)
          ⟨blocksStr ls, [defaultStyle], parts⟩
        = .ok ⟨[], [defaultStyle], parts2⟩
      ∧ styledCharsList parts2.reverse
          = styledCharsList parts.reverse ++ styledCharsList ls := by
  intro ls
  induction ls with
  | nil =>
    intro f parts _ _ hf
    obtain ⟨g, rfl⟩ : ∃ g, f = g + 1 := ⟨f - 1, by omega⟩
    refine ⟨parts, ?_, by simp [styledCharsList]⟩
    simp only [needFuel, blocksStr]
    exact loopEnd defaultConfig g [defaultStyle] parts
  | cons l rest ih =>
    intro f parts hall hadj hf
    rw [List.all_cons, Bool.and_eq_true] at hall
    obtain ⟨hsl, hrest⟩ := hall
    rw [noAdjPlain, Bool.and_eq_true] at hadj
    obtain ⟨hadj1, hadjrest⟩ := hadj
    obtain ⟨o, rfl⟩ := simpleLeaf_is_obj hsl
    obtain ⟨⟨tx, htx, htne, htcl⟩, hex, _⟩ := simpleLeaf_parts hsl
    obtain ⟨hsc, hfold, hplainne⟩ := chsOf_spec o hsl
    have htx_ne : tx ≠ [] := by simpa using htne
    have htx_step : ∀ ch ∈ tx, csize ch = 1 ∧ ch ≠ '<' :=
      fun ch hch => cleanChar_step (List.all_eq_true.mp htcl ch hch)
    by_cases hp : isPlainLeaf (.obj o) = true
    · have hch0 : styleChanges o defaultStyle = [] := plain_changes hp
      have hblock : blocksStr (Component.obj o :: rest) = tx ++ blocksStr rest := by
        simp [blocksStr, blockOf_plain hp htx]
      have hnext : blocksStr rest = [] ∨ headIs (blocksStr rest) '<' = true := by
        cases hr : rest with
        | nil => exact .inl (by simp [blocksStr])
        | cons r0 r1 =>
          refine .inr ?_
          have h0 : isPlainLeaf r0 = false := by
            simpa [hp, hr, headPlain] using hadj1
          have hsr0 : simpleLeaf r0 = true := by
            rw [hr, List.all_cons, Bool.and_eq_true] at hrest
            exact hrest.1
          exact blocksStr_styled_head r1 hsr0 h0
      have hlf : needFuel (Component.obj o :: rest) = 2 + needFuel rest := by
        simp [needFuel, leafFuel, hch0]
      rw [hblock, hlf]
      rw [show f + (2 + needFuel rest) = (f + needFuel rest) + 2 from by omega]
      rw [stepText (f + needFuel rest) tx (blocksStr rest) _ _ htx_ne htx_step hnext]
      rw [show (f + needFuel rest) + 1 = (f + 1) + needFuel rest from by omega]
      obtain ⟨parts2, hrun, hchars⟩ := ih (f + 1)
        (mkTextLeaf tx ([defaultStyle].headD defaultStyle) :: parts)
        hrest hadjrest (by omega)
      refine ⟨parts2, hrun, ?_⟩
      have hlchars : styledChars (mkTextLeaf tx ([defaultStyle].headD defaultStyle))
          = styledChars (.obj o) := by
        rw [mkTextLeaf_chars, styledChars_obj _ tx htx hex]
        obtain ⟨_, hcol, hb, hi, hu, hk, ho⟩ := isPlainLeaf_parts hp
        simp [defaultStyle, hcol, hb, hi, hu, hk, ho]
      rw [hchars, List.reverse_cons, styledCharsList_append]
      have hsingle : styledCharsList [mkTextLeaf tx ([defaultStyle].headD defaultStyle)]
          = styledChars (Component.obj o) := by
        simp only [styledCharsList, List.append_nil]
        exact hlchars
      rw [hsingle, List.append_assoc]
      simp only [styledCharsList]
    · have hpf : isPlainLeaf (.obj o) = false := by simpa using hp
      have hchne : chsOf o ≠ [] := hplainne hpf
      have hblock : blocksStr (Component.obj o :: rest)
          = openTagsStr ((chsOf o).map changeName)
            ++ (tx ++ (closeSeq ((chsOf o).map changeName).reverse
                        ++ blocksStr rest)) := by
        simp [blocksStr, blockOf, hsc, htx, closeTagsStr, List.append_assoc]
      have hlf : needFuel (Component.obj o :: rest)
          = 2 * ((chsOf o).map changeName).length + 2 + needFuel rest := by
        simp [needFuel, leafFuel, hsc]
      rw [hblock, hlf]
      rw [show f + (2 * ((chsOf o).map changeName).length + 2 + needFuel rest)
          = (chsOf o).length
            + ((f + ((chsOf o).map changeName).length + needFuel rest) + 2) from by
        simp only [List.length_map]
        omega]
      rw [opensRun]
      have hcl_head : headIs (closeSeq ((chsOf o).map changeName).reverse
          ++ blocksStr rest) '<' = true := by
        cases hrev : ((chsOf o).map changeName).reverse with
        | nil =>
          have : (chsOf o).map changeName = [] := by
            simpa using congrArg List.reverse hrev
          simp at this
          exact absurd this hchne
        | cons m ms => simp [closeSeq, headIs]
      rw [stepText (f + ((chsOf o).map changeName).length + needFuel rest) tx _ _ _
        htx_ne htx_step (Or.inr hcl_head)]
      rw [show (f + ((chsOf o).map changeName).length + needFuel rest) + 1
          = ((chsOf o).map changeName).reverse.length + ((f + needFuel rest) + 1) from by
        simp only [List.length_reverse]
        omega]
      rw [closesRun _ _ _ _ _ _
        (fun nm hnm => by
          obtain ⟨ct, _, rfl⟩ := List.mem_map.mp (List.mem_reverse.mp hnm)
          exact changeName_valid ct)
        (by
          rw [pushFrames_length]
          simp only [List.length_reverse, List.length_map, List.length_singleton]
          omega)]
      have hdrop : (pushFrames (chsOf o) [defaultStyle]).drop
          ((chsOf o).map changeName).reverse.length = [defaultStyle] := by
        rw [List.length_reverse, List.length_map]
        exact pushFrames_drop (chsOf o) [defaultStyle]
      rw [hdrop]
      rw [show (f + needFuel rest) + 1 = (f + 1) + needFuel rest from by omega]
      obtain ⟨parts2, hrun, hchars⟩ := ih (f + 1)
        (mkTextLeaf tx ((pushFrames (chsOf o) [defaultStyle]).headD defaultStyle)
          :: parts)
        hrest hadjrest (by omega)
      refine ⟨parts2, hrun, ?_⟩
      have hlchars : styledChars (mkTextLeaf tx
          ((pushFrames (chsOf o) [defaultStyle]).headD defaultStyle))
          = styledChars (.obj o) := by
        rw [pushFrames_head, hfold, mkTextLeaf_chars, styledChars_obj _ tx htx hex]
      rw [hchars, List.reverse_cons, styledCharsList_append]
      have hsingle : styledCharsList [mkTextLeaf tx
          ((pushFrames (chsOf o) [defaultStyle]).headD defaultStyle)]
          = styledChars (Component.obj o) := by
        simp only [styledCharsList, List.append_nil]
        exact hlchars
      rw [hsingle, List.append_assoc]
      simp only [styledCharsList]

/-- Claim C4 counterexample: for the tagless markup ">" (which uses only the
    color/decoration fragment trivially), serialize(parse(m)) re-parses to
    visible text "&gt;" instead of ">": the serializer escapes '>' but the
    parser never unescapes entities, so the round trip changes the visible
    text. -/
theorem c4_escaping_breaks_roundtrip :
    mmParse (str ">") = .ok (Component.text (str ">"))
    ∧ mmSerialize (Component.text (str ">")) = str "&gt;"
    ∧ mmParse (str "&gt;") = .ok (Component.text (str "&gt;"))
    ∧ styledChars (Component.text (str "&gt;"))
        ≠ styledChars (Component.text (str ">")) := by
  refine ⟨rfl, rfl, rfl, ?_⟩
  decide

/-- Claim C4 as amended: for every markup m whose parse succeeds with a
    result in the serializer's faithful fragment — a flat tree of leaves with
    nonempty ASCII text free of '<', '>' and '&', colors absent or named, and
    decorations absent or true (the shape produced by color/decoration-only
    markup; text with '>', '&', hex colors, or explicit-false decorations is
    altered by the one-directional escaping and the unsupported tag forms,
    and non-ASCII text cannot arise from a successful parse at all) —
    serialize(parse(m)) re-parses successfully to a tree with the same
    visible characters carrying the same per-leaf color and decoration
    attributes, though the splitting into components may differ. -/
theorem c4_amended_roundtrip (m : Str) (c : Component)
    (hparse : mmParse m = .ok c) (hsimple : simpleTree c = true) :
    ∃ c2, mmParse (mmSerialize c) = .ok c2
      ∧ styledChars c2 = styledChars c := by
  have hall : (leavesOf c).all simpleLeaf = true := by
    cases c with
    | str s => simp [simpleTree, simpleLeaf] at hsimple
    | arr cs => simpa [simpleTree, leavesOf] using hsimple
    | obj o =>
      simp only [leavesOf, List.all_cons, List.all_nil, Bool.and_eq_true]
      exact ⟨by simpa [simpleTree] using hsimple, trivial⟩
  have hser : mmSerialize c = blocksStr (leavesOf c) := mmSerialize_simple hsimple
  have hchars0 : styledCharsList (leavesOf c) = styledChars c := by
    cases c with
    | str s => simp [simpleTree, simpleLeaf] at hsimple
    | arr cs => simp [styledChars, leavesOf]
    | obj o => simp [styledCharsList, leavesOf]
  obtain ⟨ha, hb2, hc2⟩ := mergePlain_facts (leavesOf c) hall
  have hadj := mergePlain_noAdj (leavesOf c) hall
  have hneed := needFuel_le (mergePlain (leavesOf c)) ha
  have hbs : blocksStr (mergePlain (leavesOf c)) = mmSerialize c := by
    rw [hb2, hser]
  have hneed2 : needFuel (mergePlain (leavesOf c)) ≤ 2 * byteLen (mmSerialize c) := by
    rw [← hbs]
    exact hneed
  obtain ⟨f, hf, hf1⟩ : ∃ f,
      4 * (byteLen (mmSerialize c) + 2)
        = (f + needFuel (mergePlain (leavesOf c))) + 1 ∧ 1 ≤ f :=
    ⟨4 * (byteLen (mmSerialize c) + 2) - 1 - needFuel (mergePlain (leavesOf c)),
      by omega, by omega⟩
  obtain ⟨parts2, hrun, hchars⟩ :=
    roundTripLoop (mergePlain (leavesOf c)) f [] ha hadj hf1
  rw [hbs] at hrun
  refine ⟨finishParts parts2, ?_, ?_⟩
  · rw [mmParse, hf, parseFuel, hrun]
    rfl
  · rw [finish_chars, hchars, hc2, hchars0]
    simp [styledCharsList]

/-- Witness for c4_amended_roundtrip at m = "a<red>b</red>". -/
theorem c4_amended_witness :
    ∃ c2, mmParse (mmSerialize (Component.arr
        [Component.obj { text := some (str "a") },
         Component.obj { text := some (str "b"), color := some (.Named .red) }]))
      = .ok c2
      ∧ styledChars c2 = styledChars (Component.arr
        [Component.obj { text := some (str "a") },
         Component.obj { text := some (str "b"), color := some (.Named .red) }]) :=
  c4_amended_roundtrip (str "a<red>b</red>") _ rfl (by decide)

end Kyori
